import Mathlib

/-!
Verification of the mess-project-manager core: the indentation-based sheet
parser (`parseSheetContent`, `getIndentLevel`, `generateTitleFromContent`),
the sheet collection manager (`loadSheets`, `createOrUpdateUsefulTipsSheet`,
`updateSheet`, `deleteSheet`), the project path tree builder
(`buildProjectTree`) and the category/favorite grouper (`buildTree`).

Strings are modelled as `List Char` (`Str`).  JavaScript string operations
(`split`, `trim`, `indexOf`, `substring`, `startsWith`, `replace`,
`endsWith`) are given explicit executable models below.  Impure inputs of
the source (`Date.now`-based id generation, `new Date().toISOString()`)
are modelled by a deterministic id counter threaded through the parse and
an explicit `now` parameter; no claim depends on their values.  The file
system is modelled as an association list from file names to contents,
and `path.join(sheetsFolder, f)` is modelled as `f` itself (all files of
interest live in the single sheets folder).  `localeCompare` is modelled
as code-point comparison.
-/

namespace Mess

abbrev Str := List Char

/-- Whitespace recognised by the model of JavaScript `trim` (space, tab,
newline, carriage return). -/
def isWs (c : Char) : Bool :=
  c = ' ' || c = '\t' || c = '\n' || c = '\r'

/-- Model of JavaScript `String.prototype.trim`. -/
def trim (s : Str) : Str :=
  ((s.dropWhile isWs).reverse.dropWhile isWs).reverse

/-- Model of JavaScript `content.split('\n')`. -/
def splitLines : Str → List Str
  | [] => [[]]
  | c :: rest =>
    if c = '\n' then [] :: splitLines rest
    else
      match splitLines rest with
      | [] => [[c]]
      | l :: ls => (c :: l) :: ls

/-- Model of JavaScript `Array.prototype.join('\n')`. -/
def joinLines : List Str → Str
  | [] => []
  | [x] => x
  | x :: xs => x ++ '\n' :: joinLines xs

/-- Model of JavaScript `s.indexOf(pat)` (first occurrence; `none` for -1). -/
def indexOfSub (pat : Str) : Str → Option Nat
  | [] => if pat = [] then some 0 else none
  | c :: cs =>
    if pat.isPrefixOf (c :: cs) then some 0
    else (indexOfSub pat cs).map (· + 1)

/-- Model of JavaScript `s.replace(pat, repl)` with a plain-string pattern:
replaces the first occurrence only. -/
def replaceFirst (pat repl : Str) : Str → Str
  | [] => []
  | c :: cs =>
    if pat.isPrefixOf (c :: cs) then repl ++ (c :: cs).drop pat.length
    else c :: replaceFirst pat repl cs

/-- Model of `localeCompare`: code-point three-way comparison. -/
def compareStr : Str → Str → Int
  | [], [] => 0
  | [], _ :: _ => -1
  | _ :: _, [] => 1
  | a :: as, b :: bs =>
    if a < b then -1 else if b < a then 1 else compareStr as bs

/-! ## The note model (src/unnamed/part_004) -/

inductive NoteType where
  | command
  | note
deriving DecidableEq, Repr

/-- Structure `Note` from the source; `id` is a counter value standing for
`generateId()` and `createdAt` is the `now` parameter standing for
`new Date().toISOString()`. -/
structure Note where
  id : Nat
  title : Str
  content : Str
  type : NoteType
  createdAt : Str
  tags : List Str
  sheetName : Str
  headerName : Option Str
  description : Option Str
deriving DecidableEq, Repr

structure Header where
  name : Str
  id : Nat
  notes : List Note
deriving DecidableEq, Repr

structure Sheet where
  name : Str
  id : Str
  filePath : Str
  content : Str
  headers : List Header
deriving DecidableEq, Repr

/-- Source `getIndentLevel`: count leading spaces (a tab counts as 4), stop at the
first other character, divide by 4. -/
def indentWidth : Str → Nat
  | [] => 0
  | c :: cs =>
    if c = ' ' then 1 + indentWidth cs
    else if c = '\t' then 4 + indentWidth cs
    else 0

def getIndentLevel (line : Str) : Nat :=
  indentWidth line / 4

theorem dropWhile_length_le {α : Type} (p : α → Bool) (l : List α) :
    (l.dropWhile p).length ≤ l.length := by
  induction l with
  | nil => simp
  | cons c cs ih =>
    by_cases h : p c
    · simpa [List.dropWhile, h] using Nat.le_succ_of_le ih
    · simp [List.dropWhile, h]

/-- Word splitting used by `generateTitleFromContent`: model of
`content.trim().split(/\s+/)`.  The Bool flag is true while consuming a
run of separators (so that a maximal whitespace run yields one split). -/
def splitWsRuns : Str → Str → Bool → List Str
  | [], cur, _ => [cur.reverse]
  | c :: cs, cur, skipping =>
    if skipping then
      if isWs c then splitWsRuns cs [] true else splitWsRuns cs [c] false
    else if isWs c then cur.reverse :: splitWsRuns cs [] true
    else splitWsRuns cs (c :: cur) false

/-- Source `generateTitleFromContent`: first three words followed
by `...` when there are more than three words. -/
def generateTitleFromContent (content : Str) : Str :=
  let words := splitWsRuns (trim content) [] false
  if words.length ≤ 3 then content
  else (List.intercalate [' '] (words.take 3)) ++ "...".data

/-- Marker stripping for a level-2 line: a command marker `>` and any
whitespace after it are removed (`trimmedLine.substring(1).trim()`). -/
def noteContent0 (trimmedLine : Str) : Str :=
  if trimmedLine.head? = some '>' then trim (trimmedLine.drop 1) else trimmedLine

/-- The body of the level-2 branch of `parseSheetContent`: build one Note
from the trimmed line text.  `ctr` stands for `generateId()`, `now` for
`new Date().toISOString()`. -/
def mkNote (now : Str) (ctr : Nat) (headerName : Str) (trimmedLine : Str) : Note :=
  let isCommand : Bool := trimmedLine.head? = some '>'
  let content0 := noteContent0 trimmedLine
  let cd : Str × Str :=
    match indexOfSub (' ' :: ['#']) content0 with
    | some i => (trim (content0.take i), trim (content0.drop (i + 2)))
    | none => (content0, [])
  { id := ctr
    title := generateTitleFromContent cd.1
    content := cd.1
    type := if isCommand then .command else .note
    createdAt := now
    tags := []
    sheetName := []
    headerName := some headerName
    description := some cd.2 }

/-- The loop of `parseSheetContent`.  The accumulator holds the headers
built so far in reverse order; its head is the `currentHeader` of the source
(the most recently pushed header, mutated in place by level-2 lines). -/
def parseGo (now : Str) : List Str → List Header → Nat → List Header
  | [], acc, _ => acc
  | line :: rest, acc, ctr =>
    let trimmedLine := trim line
    if trimmedLine = [] then parseGo now rest acc ctr
    else if getIndentLevel line = 1 then
      parseGo now rest ({ name := trimmedLine, id := ctr, notes := [] } :: acc) (ctr + 1)
    else if getIndentLevel line = 2 then
      match acc with
      | [] => parseGo now rest acc ctr
      | h :: hs =>
        parseGo now rest
          ({ h with notes := h.notes ++ [mkNote now ctr h.name trimmedLine] } :: hs) (ctr + 1)
    else parseGo now rest acc ctr

/-- The parser `parseSheetContent` from the source. -/
def parseSheetContent (now : Str) (content : Str) : List Header :=
  (parseGo now (splitLines content) [] 0).reverse

/-! ## Spec-side reformulation of the parser (for the refinement claim C1):
lines are grouped declaratively — each level-1 line opens a group that
collects the level-2 lines up to the next level-1 line. -/

/-- A line that starts a new Header per the spec: non-blank and
indentation level exactly 1. -/
def isHeaderLine (l : Str) : Bool :=
  !(trim l).isEmpty && getIndentLevel l == 1

/-- A line recorded as a Note per the spec: non-blank and indentation
level exactly 2. -/
def isNoteLine (l : Str) : Bool :=
  !(trim l).isEmpty && getIndentLevel l == 2

/-- Spec-side grouping: every level-1 line yields a group named by its
trimmed text, holding the level-2 lines that follow it before the next
level-1 line.  Lines before the first level-1 line and lines of other
levels are dropped. -/
def specGroup : List Str → List (Str × List Str)
  | [] => []
  | l :: ls =>
    if isHeaderLine l then
      (trim l, (ls.takeWhile (fun x => !isHeaderLine x)).filter isNoteLine)
        :: specGroup (ls.dropWhile (fun x => !isHeaderLine x))
    else specGroup ls
termination_by ls => ls.length
decreasing_by
  · simp only [List.length_cons]
    exact Nat.lt_succ_of_le (dropWhile_length_le _ ls)
  · simp

/-- All fields of a Note except the generated `id`. -/
def noteData (n : Note) :
    Str × Str × NoteType × Str × List Str × Str × Option Str × Option Str :=
  (n.title, n.content, n.type, n.createdAt, n.tags, n.sheetName, n.headerName, n.description)

/-- All fields of a Header except the generated `id`. -/
def headerData (h : Header) :
    Str × List (Str × Str × NoteType × Str × List Str × Str × Option Str × Option Str) :=
  (h.name, h.notes.map noteData)

/-- The data a spec-side group denotes: its name together with the notes
built (by the note constructor of the source) from its collected lines. -/
def groupData (now : Str) (g : Str × List Str) :
    Str × List (Str × Str × NoteType × Str × List Str × Str × Option Str × Option Str) :=
  (g.1, g.2.map (fun l => noteData (mkNote now 0 g.1 (trim l))))

theorem specGroup_nil : specGroup [] = [] := by
  rw [specGroup.eq_def]

theorem specGroup_cons (l : Str) (ls : List Str) :
    specGroup (l :: ls)
      = if isHeaderLine l then
          (trim l, (ls.takeWhile (fun x => !isHeaderLine x)).filter isNoteLine)
            :: specGroup (ls.dropWhile (fun x => !isHeaderLine x))
        else specGroup ls := by
  rw [specGroup.eq_def]

theorem noteData_mkNote_ctr (now : Str) (ctr : Nat) (n t : Str) :
    noteData (mkNote now ctr n t) = noteData (mkNote now 0 n t) := rfl

theorem parseGo_blank {l : Str} (now : Str) (ls : List Str) (acc : List Header)
    (ctr : Nat) (hb : trim l = []) :
    parseGo now (l :: ls) acc ctr = parseGo now ls acc ctr := by
  simp [parseGo, hb]

theorem parseGo_header {l : Str} (now : Str) (ls : List Str) (acc : List Header)
    (ctr : Nat) (hb : trim l ≠ []) (h1 : getIndentLevel l = 1) :
    parseGo now (l :: ls) acc ctr
      = parseGo now ls ({ name := trim l, id := ctr, notes := [] } :: acc) (ctr + 1) := by
  simp [parseGo, hb, h1]

theorem parseGo_note_cons {l : Str} (now : Str) (ls : List Str) (h : Header)
    (hs : List Header) (ctr : Nat) (hb : trim l ≠ []) (h1 : getIndentLevel l ≠ 1)
    (h2 : getIndentLevel l = 2) :
    parseGo now (l :: ls) (h :: hs) ctr
      = parseGo now ls
          ({ h with notes := h.notes ++ [mkNote now ctr h.name (trim l)] } :: hs) (ctr + 1) := by
  simp [parseGo, hb, h1, h2]

theorem parseGo_note_nil {l : Str} (now : Str) (ls : List Str) (ctr : Nat)
    (hb : trim l ≠ []) (h1 : getIndentLevel l ≠ 1) (h2 : getIndentLevel l = 2) :
    parseGo now (l :: ls) [] ctr = parseGo now ls [] ctr := by
  simp [parseGo, hb, h1, h2]

theorem parseGo_other {l : Str} (now : Str) (ls : List Str) (acc : List Header)
    (ctr : Nat) (hb : trim l ≠ []) (h1 : getIndentLevel l ≠ 1)
    (h2 : getIndentLevel l ≠ 2) :
    parseGo now (l :: ls) acc ctr = parseGo now ls acc ctr := by
  simp [parseGo, hb, h1, h2]

theorem parseGo_cons_spec (now : Str) (ls : List Str) :
    ∀ (h : Header) (hs : List Header) (ctr : Nat),
    ((parseGo now ls (h :: hs) ctr).reverse).map headerData
      = (hs.reverse.map headerData)
        ++ [(h.name, h.notes.map noteData
              ++ ((ls.takeWhile (fun x => !isHeaderLine x)).filter isNoteLine).map
                   (fun l => noteData (mkNote now 0 h.name (trim l))))]
        ++ (specGroup (ls.dropWhile (fun x => !isHeaderLine x))).map (groupData now) := by
  induction ls with
  | nil =>
    intro h hs ctr
    simp [parseGo, specGroup, headerData]
  | cons l ls ih =>
    intro h hs ctr
    by_cases hb : trim l = []
    · have hH : isHeaderLine l = false := by simp [isHeaderLine, hb]
      have hN : isNoteLine l = false := by simp [isNoteLine, hb]
      rw [parseGo_blank now ls _ ctr hb, ih h hs ctr]
      simp [List.takeWhile_cons, List.dropWhile_cons, List.filter_cons, hH, hN]
    · by_cases h1 : getIndentLevel l = 1
      · have hH : isHeaderLine l = true := by
          simp [isHeaderLine, hb, h1, List.isEmpty_iff]
        rw [parseGo_header now ls _ ctr hb h1, ih _ _ (ctr + 1)]
        rw [List.dropWhile_cons, List.takeWhile_cons]
        simp only [hH, Bool.not_true, Bool.false_eq_true, if_false, reduceIte]
        rw [specGroup_cons]
        simp only [hH, if_pos rfl, List.map_cons, List.reverse_cons, List.map_append,
          List.map_nil, List.append_assoc, headerData]
        simp [groupData]
      · by_cases h2 : getIndentLevel l = 2
        · have hH : isHeaderLine l = false := by simp [isHeaderLine, h1]
          have hN : isNoteLine l = true := by
            simp [isNoteLine, hb, h2, List.isEmpty_iff]
          rw [parseGo_note_cons now ls h hs ctr hb h1 h2, ih _ _ (ctr + 1)]
          simp [List.takeWhile_cons, List.dropWhile_cons, List.filter_cons, hH, hN,
            noteData_mkNote_ctr]
        · have hH : isHeaderLine l = false := by simp [isHeaderLine, h1]
          have hN : isNoteLine l = false := by simp [isNoteLine, h2]
          rw [parseGo_other now ls _ ctr hb h1 h2, ih h hs ctr]
          simp [List.takeWhile_cons, List.dropWhile_cons, List.filter_cons, hH, hN]

theorem parseGo_nil_spec (now : Str) (ls : List Str) :
    ∀ (ctr : Nat),
    ((parseGo now ls [] ctr).reverse).map headerData
      = (specGroup ls).map (groupData now) := by
  induction ls with
  | nil => intro ctr; simp [parseGo, specGroup_nil]
  | cons l ls ih =>
    intro ctr
    by_cases hb : trim l = []
    · have hH : isHeaderLine l = false := by simp [isHeaderLine, hb]
      rw [parseGo_blank now ls _ ctr hb, ih ctr, specGroup_cons]
      simp [hH]
    · by_cases h1 : getIndentLevel l = 1
      · have hH : isHeaderLine l = true := by
          simp [isHeaderLine, hb, h1, List.isEmpty_iff]
        rw [parseGo_header now ls _ ctr hb h1,
          parseGo_cons_spec now ls _ [] (ctr + 1), specGroup_cons]
        simp [hH, headerData, groupData]
      · by_cases h2 : getIndentLevel l = 2
        · have hH : isHeaderLine l = false := by simp [isHeaderLine, h1]
          rw [parseGo_note_nil now ls ctr hb h1 h2, ih ctr, specGroup_cons]
          simp [hH]
        · have hH : isHeaderLine l = false := by simp [isHeaderLine, h1]
          rw [parseGo_other now ls _ ctr hb h1 h2, ih ctr, specGroup_cons]
          simp [hH]

/-- C1: `parseSheetContent` splits its input into lines, skips lines blank
after trimming, computes the level of each line as floor(leading width / 4)
with tabs worth 4, starts a new Header (named the trimmed text, in
encounter order) for each level-1 line, appends each level-2 line as a
Note to the current header only when one exists (a level-2 line before
any header is dropped), and ignores all other levels: modulo generated
ids, the parse equals the declarative line grouping `specGroup`. -/
theorem parse_splits_and_groups_lines (now content : Str) :
    (parseSheetContent now content).map headerData
      = (specGroup (splitLines content)).map (groupData now) := by
  unfold parseSheetContent
  exact parseGo_nil_spec now (splitLines content) 0

/-! ## Sheet collection manager (`NotesProvider` in src/unnamed/part_004) -/

/-- The built-in Useful Tips template from `createOrUpdateUsefulTipsSheet`. -/
def usefulTipsContent : Str :=
  ("Useful Tips\n\n    Git Commands\n        > git status # Check repository status and changes\n        > git add . # Stage all changes for commit\n        > git add filename # Stage specific file for commit\n        > git commit -m \"your message\" # Commit staged changes with message\n        > git commit --amend # Modify the last commit\n        > git push # Push commits to remote repository\n        > git push -u origin branch-name # Push new branch to remote\n        > git pull # Fetch and merge changes from remote\n        > git fetch # Download changes without merging\n        > git branch -a # List all branches (local and remote)\n        > git branch -d branch-name # Delete local branch\n        > git checkout -b new-branch # Create and switch to new branch\n        > git checkout branch-name # Switch to existing branch\n        > git merge branch-name # Merge specified branch into current\n        > git rebase main # Rebase current branch onto main\n        > git log --oneline # View commit history in compact format\n        > git log --graph # View commit history with branch graph\n        > git reset --hard HEAD # Discard all local changes\n        > git reset --soft HEAD~1 # Undo last commit, keep changes staged\n        > git stash # Temporarily save current changes\n        > git stash pop # Restore previously stashed changes\n        > git diff # Show unstaged changes\n        > git diff --staged # Show staged changes\n        > git tag v1.0.0 # Create a new tag\n        > git clone repo-url # Clone remote repository\n\n    NPM/Yarn Commands\n        > npm install # Install all dependencies from package.json\n        > npm install package-name # Install specific package\n        > npm install -g package-name # Install package globally\n        > npm install --save-dev package-name # Install as dev dependency\n        > npm uninstall package-name # Remove package\n        > npm update # Update all packages to latest versions\n        > npm run start # Start the application\n        > npm run build # Build the project for production\n        > npm run test # Run test suite\n        > npm run dev # Start development server\n        > npm run lint # Run linting checks\n        > npm audit # Check for security vulnerabilities\n        > npm audit fix # Fix security vulnerabilities automatically\n        > npm list # Show installed packages tree\n        > npm outdated # Check for outdated packages\n        > yarn install # Install dependencies using Yarn\n        > yarn add package-name # Add package with Yarn\n        > yarn remove package-name # Remove package with Yarn\n        > yarn start # Start application with Yarn\n        > yarn build # Build project with Yarn\n        > yarn test # Run tests with Yarn\n        > npx command # Run package without installing globally\n\n    Docker Commands\n        > docker ps # List running containers\n        > docker ps -a # List all containers (running and stopped)\n        > docker images # List all Docker images\n        > docker build -t image-name . # Build image from Dockerfile\n        > docker run -d -p 8080:80 image-name # Run container in background\n        > docker run -it image-name bash # Run container interactively\n        > docker stop container-name # Stop running container\n        > docker start container-name # Start stopped container\n        > docker restart container-name # Restart container\n        > docker rm container-name # Remove container\n        > docker rmi image-name # Remove Docker image\n        > docker logs container-name # View container logs\n        > docker logs -f container-name # Follow container logs in real-time\n        > docker exec -it container-name bash # Execute command in running container\n        > docker-compose up # Start services defined in docker-compose.yml\n        > docker-compose up -d # Start services in background\n        > docker-compose down # Stop and remove all services\n        > docker-compose build # Build all services\n        > docker-compose logs # View logs from all services\n        > docker system prune # Remove unused containers, images, networks\n\n    System Commands (Linux/Mac)\n        > ls -la # List all files with detailed information\n        > ls -lh # List files with human-readable file sizes\n        > cd .. # Go to parent directory\n        > cd ~ # Go to home directory\n        > pwd # Show current directory path\n        > mkdir folder-name # Create new directory\n        > mkdir -p path/to/folder # Create nested directories\n        > rmdir folder-name # Remove empty directory\n        > rm -rf folder-name # Remove directory and all contents\n        > cp file1.txt file2.txt # Copy file\n        > cp -r folder1 folder2 # Copy directory recursively\n        > mv oldname.txt newname.txt # Move/rename file\n        > chmod +x script.sh # Make file executable\n        > chmod 755 file.txt # Set specific permissions\n        > chown user:group file.txt # Change file ownership\n        > find . -name \"*.txt\" # Find files by name pattern\n        > grep \"search-term\" file.txt # Search for text in file\n        > grep -r \"search-term\" . # Search recursively in directory\n        > ps aux # Show running processes\n        > top # Show running processes with resource usage\n        > htop # Enhanced process viewer (if installed)\n        > kill -9 process-id # Force kill process by ID\n        > killall process-name # Kill all processes by name\n        > df -h # Show disk usage\n        > du -sh folder # Show directory size\n        > free -h # Show memory usage\n        > which command # Show path to command\n        > wget url # Download file from URL\n        > curl -O url # Download file with curl\n        > tar -czf archive.tar.gz folder/ # Create compressed archive\n        > tar -xzf archive.tar.gz # Extract compressed archive\n        > ssh user@server # Connect to remote server via SSH\n        > scp file.txt user@server:/path # Copy file to remote server\n\n    Windows Commands\n        > dir # List directory contents\n        > cd .. # Go to parent directory\n        > cd \\ # Go to root directory\n        > md folder-name # Create directory\n        > rd /s folder-name # Remove directory and contents\n        > copy file1.txt file2.txt # Copy file\n        > move oldname.txt newname.txt # Move/rename file\n        > del file.txt # Delete file\n        > type file.txt # Display file contents\n        > find \"search-term\" file.txt # Search for text in file\n        > tasklist # Show running processes\n        > taskkill /pid process-id # Kill process by ID\n        > taskkill /im process-name.exe # Kill process by name\n        > ipconfig # Show network configuration\n        > ping google.com # Test network connectivity\n        > netstat -an # Show network connections\n\n    Python Commands\n        > python --version # Check Python version\n        > python script.py # Run Python script\n        > python -m pip install package # Install Python package\n        > python -m pip list # List installed packages\n        > python -m pip freeze > requirements.txt # Export dependencies\n        > python -m pip install -r requirements.txt # Install from requirements\n        > python -m venv env # Create virtual environment\n        > source env/bin/activate # Activate virtual environment (Linux/Mac)\n        > env\\Scripts\\activate # Activate virtual environment (Windows)\n        > deactivate # Deactivate virtual environment\n        > python -m pytest # Run tests with pytest\n        > python -m http.server 8000 # Start simple HTTP server\n\n    Database Commands\n        > psql -U username -d database # Connect to PostgreSQL\n        > mysql -u username -p database # Connect to MySQL\n        > mongosh # Connect to MongoDB shell\n        > redis-cli # Connect to Redis CLI\n        > sqlite3 database.db # Open SQLite database\n\n    Development Notes\n        Keep dependencies up to date regularly # Security and performance benefits\n        Use semantic versioning (major.minor.patch) # Clear version communication\n        Always test before pushing to main branch # Prevent breaking production\n        Commit frequently with meaningful messages # Better project history\n        Document your code and APIs thoroughly # Help future developers\n        Use environment variables for configuration # Keep secrets secure\n        Follow coding standards and best practices # Maintain code quality\n        Backup your work regularly # Prevent data loss\n        Use version control for all projects # Track changes and collaborate\n        Review code before merging # Catch bugs and improve quality\n        Set up CI/CD pipelines # Automate testing and deployment\n        Monitor application performance # Identify issues early\n        Use linting tools and formatters # Consistent code style\n        Write unit and integration tests # Ensure code reliability\n        Keep production and development environments separate # Avoid conflicts\n\n    Useful Links\n        GitHub documentation: https://docs.github.com # Git and GitHub help\n        NPM registry: https://www.npmjs.com # JavaScript package repository\n        Docker Hub: https://hub.docker.com # Container image registry\n        Stack Overflow: https://stackoverflow.com # Programming Q&A community\n        MDN Web Docs: https://developer.mozilla.org # Web development reference\n        VS Code Marketplace: https://marketplace.visualstudio.com # Editor extensions\n        Can I Use: https://caniuse.com # Browser compatibility checker\n        Regex101: https://regex101.com # Regular expression tester\n        JSON Formatter: https://jsonformatter.org # JSON validation and formatting\n        Base64 Encode/Decode: https://www.base64encode.org # Base64 utilities").data

def tipsId : Str := "useful-tips".data

def tipsFileName : Str := "useful-tips.txt".data

def txtSuffix : Str := ['.', 't', 'x', 't']

/-- The sheets folder, modelled as an association list file name to
content (first match wins on read). -/
abbrev FS := List (Str × Str)

def readFile (fs : FS) (name : Str) : Option Str :=
  (fs.find? (fun e => e.1 == name)).map (·.2)

/-- Model of `fs.writeFileSync`: replace the entry in place, or append a new one. -/
def writeFile : FS → Str → Str → FS
  | [], n, c => [(n, c)]
  | e :: es, n, c => if e.1 = n then (n, c) :: es else e :: writeFile es n c

/-- Model of `fs.unlinkSync` (guarded by `existsSync` in the source; removing an
absent file is the identity either way). -/
def removeFile (fs : FS) (n : Str) : FS :=
  fs.filter (fun e => !(e.1 == n))

/-- Model of the id derivation: remove the first occurrence of ".txt"
from the file name (`file.replace`). -/
def fileId (fname : Str) : Str := replaceFirst txtSuffix [] fname

/-- Source `updateSheetNameInNotes`: backfill `sheetName` on every note. -/
def updateSheetNameInNotes (nm : Str) (hs : List Header) : List Header :=
  hs.map (fun h => { h with notes := h.notes.map (fun n => { n with sheetName := nm }) })

/-- The body of the `loadSheets` file loop for one `.txt` file. -/
def mkFileSheet (now fname content : Str) : Sheet :=
  let lines := splitLines content
  let sheetId := fileId fname
  let t := trim (lines.headD [])
  let sheetName := if t = [] then sheetId else t
  { name := sheetName, id := sheetId, filePath := fname, content := content,
    headers := updateSheetNameInNotes sheetName (parseSheetContent now content) }

/-- The `loadSheets` loop filter: process `.txt` files other than
`useful-tips.txt`. -/
def loadFile (now : Str) (e : Str × Str) : Option Sheet :=
  if txtSuffix.isSuffixOf e.1 ∧ e.1 ≠ tipsFileName then some (mkFileSheet now e.1 e.2)
  else none

/-- The sheet built by `createOrUpdateUsefulTipsSheet`. -/
def usefulTipsSheet (now : Str) : Sheet :=
  { name := "Useful Tips".data, id := tipsId, filePath := tipsFileName,
    content := usefulTipsContent,
    headers := updateSheetNameInNotes "Useful Tips".data
      (parseSheetContent now usefulTipsContent) }

/-- The sort comparator of `loadSheets` (`localeCompare` modelled as
code-point comparison). -/
def sheetCmp (a b : Sheet) : Int :=
  if a.id = tipsId then -1
  else if b.id = tipsId then 1
  else compareStr a.name b.name

/-- Relation: `a` may be placed before `b` by a comparator-respecting
stable sort. -/
def sheetR (a b : Sheet) : Prop := sheetCmp a b ≤ 0

instance decSheetR : DecidableRel sheetR :=
  fun a b => inferInstanceAs (Decidable (sheetCmp a b ≤ 0))

/-- Source `loadSheets`: rewrite the Useful Tips file, build its sheet, load all
other `.txt` files from the folder, and sort with the reserved sheet
first; returns the sheet list and the folder state after the rewrite. -/
def loadSheets (now : Str) (fs : FS) : List Sheet × FS :=
  let fs1 := writeFile fs tipsFileName usefulTipsContent
  (List.insertionSort sheetR (usefulTipsSheet now :: fs1.filterMap (loadFile now)), fs1)

/-- Provider state: the in-memory sheet list plus the persisted folder. -/
structure SheetStore where
  sheets : List Sheet
  fs : FS
deriving DecidableEq

def refreshStore (now : Str) (st : SheetStore) : SheetStore :=
  ⟨(loadSheets now st.fs).1, (loadSheets now st.fs).2⟩

/-- Source `updateSheet(id, name)`: if a sheet with the id exists and its file is
readable, overwrite the first line of the file with the new name and reload;
otherwise do nothing. -/
def updateSheet (now sid newName : Str) (st : SheetStore) : SheetStore :=
  match st.sheets.find? (fun s => s.id == sid) with
  | none => st
  | some s =>
    match readFile st.fs s.filePath with
    | none => st
    | some content =>
      let newContent := joinLines (newName :: (splitLines content).drop 1)
      refreshStore now ⟨st.sheets, writeFile st.fs s.filePath newContent⟩

/-- Source `deleteSheet(id)`: if a sheet with the id exists, remove its file and
reload; otherwise do nothing. -/
def deleteSheet (now sid : Str) (st : SheetStore) : SheetStore :=
  match st.sheets.find? (fun s => s.id == sid) with
  | none => st
  | some s => refreshStore now ⟨st.sheets, removeFile st.fs s.filePath⟩

/-! ## Lemmas for the sort comparator and the reserved id -/

theorem compareStr_swap : ∀ (a b : Str), compareStr b a = -compareStr a b := by
  intro a
  induction a with
  | nil => intro b; cases b <;> rfl
  | cons x xs ih =>
    intro b
    cases b with
    | nil => rfl
    | cons y ys =>
      show compareStr (y :: ys) (x :: xs) = -compareStr (x :: xs) (y :: ys)
      rw [compareStr, compareStr]
      rcases lt_trichotomy x y with h | h | h
      · rw [if_neg (asymm h), if_pos h, if_pos h]
        decide
      · subst h
        rw [if_neg (lt_irrefl x), if_neg (lt_irrefl x), if_neg (lt_irrefl x),
          if_neg (lt_irrefl x)]
        exact ih ys
      · rw [if_pos h, if_neg (asymm h), if_pos h]

theorem compareStr_le_trans : ∀ (a b c : Str),
    compareStr a b ≤ 0 → compareStr b c ≤ 0 → compareStr a c ≤ 0 := by
  intro a
  induction a with
  | nil =>
    intro b c _ _
    cases c <;> simp [compareStr]
  | cons x xs ih =>
    intro b c h1 h2
    cases b with
    | nil => simp [compareStr] at h1
    | cons y ys =>
      cases c with
      | nil => simp [compareStr] at h2
      | cons z zs =>
        rw [compareStr] at h1 h2 ⊢
        rcases lt_trichotomy x y with hxy | hxy | hxy
        · rcases lt_trichotomy y z with hyz | hyz | hyz
          · rw [if_pos (lt_trans hxy hyz)]; decide
          · subst hyz; rw [if_pos hxy]; decide
          · rw [if_neg (asymm hyz), if_pos hyz] at h2
            exact absurd h2 (by decide)
        · subst hxy
          rcases lt_trichotomy x z with hxz | hxz | hxz
          · rw [if_pos hxz]; decide
          · subst hxz
            rw [if_neg (lt_irrefl x), if_neg (lt_irrefl x)] at h1 h2 ⊢
            exact ih ys zs h1 h2
          · rw [if_neg (asymm hxz), if_pos hxz] at h2
            exact absurd h2 (by decide)
        · rw [if_neg (asymm hxy), if_pos hxy] at h1
          exact absurd h1 (by decide)

theorem sheetR_total : ∀ (a b : Sheet), sheetR a b ∨ sheetR b a := by
  intro a b
  unfold sheetR sheetCmp
  by_cases ha : a.id = tipsId
  · left; rw [if_pos ha]; decide
  · by_cases hb : b.id = tipsId
    · right; rw [if_pos hb]; decide
    · rw [if_neg ha, if_neg hb, if_neg hb, if_neg ha]
      rcases le_or_lt (compareStr a.name b.name) 0 with h | h
      · exact Or.inl h
      · right
        rw [compareStr_swap]
        omega

theorem sheetR_trans : ∀ (a b c : Sheet), sheetR a b → sheetR b c → sheetR a c := by
  intro a b c h1 h2
  unfold sheetR sheetCmp at h1 h2 ⊢
  by_cases ha : a.id = tipsId
  · rw [if_pos ha]; decide
  · rw [if_neg ha] at h1 ⊢
    by_cases hb : b.id = tipsId
    · rw [if_pos hb] at h1; exact absurd h1 (by decide)
    · rw [if_neg hb] at h1 h2
      by_cases hc : c.id = tipsId
      · rw [if_pos hc] at h2; exact absurd h2 (by decide)
      · rw [if_neg hc] at h2 ⊢
        exact compareStr_le_trans _ _ _ h1 h2

instance instSheetRTotal : IsTotal Sheet sheetR := ⟨sheetR_total⟩

instance instSheetRTrans : IsTrans Sheet sheetR := ⟨sheetR_trans⟩

/-- The reserved sheet compares `-1` against everything, so a stable sort
keeps it at the head. -/
theorem insertionSort_tips_cons (now : Str) (l : List Sheet) :
    List.insertionSort sheetR (usefulTipsSheet now :: l)
      = usefulTipsSheet now :: List.insertionSort sheetR l := by
  rw [List.insertionSort]
  cases h : List.insertionSort sheetR l with
  | nil => rfl
  | cons y ys =>
    rw [List.orderedInsert, if_pos]
    show sheetCmp (usefulTipsSheet now) y ≤ 0
    rw [sheetCmp, if_pos (show (usefulTipsSheet now).id = tipsId from rfl)]
    decide

theorem prefix_of_prefix_append {p a b : Str} (h : p <+: a ++ b)
    (hl : p.length ≤ a.length) : p <+: a := by
  rw [List.prefix_iff_eq_take] at h ⊢
  rw [List.take_append_of_le_length hl] at h
  exact h

theorem suffix_of_suffix_append {l x d : Str} (h : l <:+ x ++ d)
    (hl : l.length ≤ d.length) : l <:+ d := by
  rw [← List.reverse_prefix] at h ⊢
  rw [List.reverse_append] at h
  exact prefix_of_prefix_append h (by simpa using hl)

/-- If a string ends in `.txt` and deleting the first occurrence of
`.txt` yields a dot-free string `t`, the string is exactly `t ++ ".txt"`. -/
theorem replaceFirst_txt_suffix_eq : ∀ (s t : Str), '.' ∉ t →
    txtSuffix <:+ s → replaceFirst txtSuffix [] s = t → s = t ++ txtSuffix := by
  intro s
  induction s with
  | nil =>
    intro t _ hsuf _
    exact absurd (List.suffix_nil.mp hsuf) (by decide)
  | cons c cs ih =>
    intro t hdot hsuf hrep
    rw [replaceFirst] at hrep
    by_cases hp : txtSuffix.isPrefixOf (c :: cs) = true
    · rw [if_pos hp] at hrep
      obtain ⟨d, hd⟩ := List.isPrefixOf_iff_prefix.mp hp
      rw [← hd] at hrep hsuf ⊢
      rw [List.nil_append, List.drop_left] at hrep
      subst hrep
      cases d with
      | nil => simp
      | cons e es =>
        exfalso
        by_cases hlen : txtSuffix.length ≤ (e :: es).length
        · exact hdot ((suffix_of_suffix_append hsuf hlen).subset
            (show '.' ∈ txtSuffix by decide))
        · simp only [not_le] at hlen
          obtain ⟨u, hu⟩ := hsuf
          have hlen4 : txtSuffix.length = 4 := rfl
          have hul : u.length = es.length + 1 := by
            have hL := congrArg List.length hu
            simp only [List.length_append, List.length_cons, hlen4] at hL
            omega
          have hule : u.length ≤ txtSuffix.length := by
            rw [hlen4, hul]
            simp only [List.length_cons, hlen4] at hlen
            omega
          have heq : txtSuffix.drop u.length ++ (e :: es) = txtSuffix := by
            have h1 := List.drop_left u txtSuffix
            rw [hu] at h1
            rw [List.drop_append_of_le_length hule] at h1
            exact h1
          cases es with
          | nil =>
            have hu1 : u.length = 1 := by simpa using hul
            rw [hu1] at heq
            simp [txtSuffix] at heq
          | cons e1 es1 =>
            cases es1 with
            | nil =>
              have hu2 : u.length = 2 := by simpa using hul
              rw [hu2] at heq
              simp [txtSuffix] at heq
            | cons e2 es2 =>
              cases es2 with
              | nil =>
                have hu3 : u.length = 3 := by simpa using hul
                rw [hu3] at heq
                simp [txtSuffix] at heq
              | cons e3 es3 =>
                simp only [List.length_cons, hlen4] at hlen
                omega
    · rw [if_neg hp] at hrep
      cases t with
      | nil => exact absurd hrep (by simp)
      | cons t0 ts =>
        injection hrep with hc hrep2
        subst hc
        obtain ⟨u, hu⟩ := hsuf
        cases u with
        | nil =>
          exfalso
          rw [List.nil_append] at hu
          rw [← hu] at hp
          exact hp (by decide)
        | cons u0 us =>
          have hcs : txtSuffix <:+ cs := by
            refine ⟨us, ?_⟩
            have := congrArg List.tail hu
            simpa using this
          have h1 : '.' ∉ ts := fun hm => hdot (List.mem_cons_of_mem _ hm)
          have := ih ts h1 hcs hrep2
          rw [this, List.cons_append]

/-- A `.txt` file other than `useful-tips.txt` never yields the reserved id. -/
theorem fileId_ne_tipsId {f : Str} (hsuf : txtSuffix.isSuffixOf f = true)
    (hne : f ≠ tipsFileName) : fileId f ≠ tipsId := by
  intro h
  apply hne
  have := replaceFirst_txt_suffix_eq f tipsId (by decide)
    (List.isSuffixOf_iff_suffix.mp hsuf) h
  rw [this]
  decide

theorem loadFile_id_ne_tipsId {now : Str} {e : Str × Str} {s : Sheet}
    (h : loadFile now e = some s) : s.id ≠ tipsId := by
  rw [loadFile] at h
  by_cases hc : txtSuffix.isSuffixOf e.1 = true ∧ e.1 ≠ tipsFileName
  · rw [if_pos hc] at h
    obtain ⟨h1, h2⟩ := hc
    rw [← Option.some.inj h]
    exact fileId_ne_tipsId h1 h2
  · rw [if_neg hc] at h
    exact absurd h (by simp)

theorem readFile_writeFile_self : ∀ (fs : FS) (n c : Str),
    readFile (writeFile fs n c) n = some c := by
  intro fs n c
  induction fs with
  | nil => simp [writeFile, readFile, List.find?]
  | cons e es ih =>
    rw [writeFile]
    by_cases h : e.1 = n
    · rw [if_pos h]
      simp [readFile, List.find?]
    · rw [if_neg h]
      rw [readFile, List.find?]
      have : (e.1 == n) = false := by simpa using h
      rw [this]
      exact ih

/-- C4: after every load of the sheet collection, the reserved
"useful-tips" sheet exists, its persisted file and in-memory content are
rewritten from the built-in template unconditionally (whatever was stored
under that name before), it is first in the returned order, and all other
sheets follow in ascending name order. -/
theorem loadSheets_reserved_first_sorted (now : Str) (fs : FS) :
    ∃ rest : List Sheet,
      (loadSheets now fs).1 = usefulTipsSheet now :: rest
      ∧ (usefulTipsSheet now).id = tipsId
      ∧ (usefulTipsSheet now).content = usefulTipsContent
      ∧ readFile (loadSheets now fs).2 tipsFileName = some usefulTipsContent
      ∧ rest.Pairwise (fun a b => compareStr a.name b.name ≤ 0) := by
  refine ⟨List.insertionSort sheetR
      ((writeFile fs tipsFileName usefulTipsContent).filterMap (loadFile now)),
    insertionSort_tips_cons now _, rfl, rfl,
    readFile_writeFile_self fs tipsFileName usefulTipsContent, ?_⟩
  have hsorted : List.Pairwise sheetR (List.insertionSort sheetR
      ((writeFile fs tipsFileName usefulTipsContent).filterMap (loadFile now))) :=
    List.sorted_insertionSort sheetR _
  rw [List.pairwise_iff_forall_sublist] at hsorted ⊢
  intro a b hsub
  have hR := hsorted hsub
  have hida : a.id ≠ tipsId := by
    have ha : a ∈ (writeFile fs tipsFileName usefulTipsContent).filterMap (loadFile now) :=
      (List.mem_insertionSort sheetR).mp (hsub.subset (by simp))
    obtain ⟨e, _, hsome⟩ := List.mem_filterMap.mp ha
    exact loadFile_id_ne_tipsId hsome
  have hidb : b.id ≠ tipsId := by
    have hb : b ∈ (writeFile fs tipsFileName usefulTipsContent).filterMap (loadFile now) :=
      (List.mem_insertionSort sheetR).mp (hsub.subset (by simp))
    obtain ⟨e, _, hsome⟩ := List.mem_filterMap.mp hb
    exact loadFile_id_ne_tipsId hsome
  unfold sheetR sheetCmp at hR
  rw [if_neg hida, if_neg hidb] at hR
  exact hR

/-! ## Lemmas on line splitting and joining -/

theorem splitLines_ne_nil (x : Str) : splitLines x ≠ [] := by
  cases x with
  | nil => simp [splitLines]
  | cons c rest =>
    rw [splitLines]
    by_cases h : c = '\n'
    · simp [h]
    · rw [if_neg h]
      cases splitLines rest <;> simp

theorem splitLines_no_nl : ∀ (s : Str), ∀ x ∈ splitLines s, '\n' ∉ x := by
  intro s
  induction s with
  | nil =>
    intro x hx
    simp [splitLines] at hx
    simp [hx]
  | cons c rest ih =>
    intro x hx
    rw [splitLines] at hx
    by_cases h : c = '\n'
    · rw [if_pos h] at hx
      rcases List.mem_cons.mp hx with h1 | h1
      · simp [h1]
      · exact ih x h1
    · rw [if_neg h] at hx
      cases hsl : splitLines rest with
      | nil => exact absurd hsl (splitLines_ne_nil rest)
      | cons l ls =>
        rw [hsl] at hx
        rcases List.mem_cons.mp hx with h1 | h1
        · subst h1
          intro hm
          rcases List.mem_cons.mp hm with h2 | h2
          · exact h h2.symm
          · exact ih l (hsl ▸ List.mem_cons_self l ls) h2
        · exact ih x (hsl ▸ List.mem_cons_of_mem l h1)

theorem splitLines_of_no_nl : ∀ (x : Str), '\n' ∉ x → splitLines x = [x] := by
  intro x
  induction x with
  | nil => intro _; rfl
  | cons c rest ih =>
    intro h
    have hc : ¬ c = '\n' := fun hh => h (hh ▸ List.mem_cons_self c rest)
    have hr : '\n' ∉ rest := fun hh => h (List.mem_cons_of_mem c hh)
    rw [splitLines, if_neg hc, ih hr]

theorem splitLines_append_nl (x t : Str) (hx : '\n' ∉ x) :
    splitLines (x ++ '\n' :: t) = x :: splitLines t := by
  induction x with
  | nil => simp [splitLines]
  | cons c rest ih =>
    have hc : ¬ c = '\n' := fun hh => hx (hh ▸ List.mem_cons_self c rest)
    have hr : '\n' ∉ rest := fun hh => hx (List.mem_cons_of_mem c hh)
    rw [List.cons_append, splitLines, if_neg hc, ih hr]

theorem splitLines_joinLines : ∀ (ls : List Str), ls ≠ [] →
    (∀ x ∈ ls, '\n' ∉ x) → splitLines (joinLines ls) = ls := by
  intro ls
  induction ls with
  | nil => intro h _; exact absurd rfl h
  | cons x xs ih =>
    intro _ hnl
    cases xs with
    | nil =>
      rw [joinLines]
      exact splitLines_of_no_nl x (hnl x (List.mem_cons_self x []))
    | cons y ys =>
      have h2 := ih (List.cons_ne_nil y ys) (fun z hz => hnl z (List.mem_cons_of_mem x hz))
      rw [joinLines, splitLines_append_nl x (joinLines (y :: ys))
        (hnl x (List.mem_cons_self x (y :: ys))), h2]
      exact List.cons_ne_nil y ys

theorem readFile_writeFile_other : ∀ (fs : FS) (n c m : Str), m ≠ n →
    readFile (writeFile fs n c) m = readFile fs m := by
  intro fs n c m hm
  have h1 : (n == m) = false := beq_eq_false_iff_ne.mpr (fun hh => hm hh.symm)
  induction fs with
  | nil =>
    rw [writeFile, readFile, readFile]
    simp [List.find?, h1]
  | cons e es ih =>
    rw [writeFile]
    by_cases h : e.1 = n
    · rw [if_pos h, readFile, readFile]
      have h2 : (e.1 == m) = false := by rw [h]; exact h1
      simp only [List.find?, h1, h2]
    · rw [if_neg h, readFile, readFile]
      by_cases h2 : e.1 = m
      · have hb : (e.1 == m) = true := beq_iff_eq.mpr h2
        simp only [List.find?, hb]
      · have hb : (e.1 == m) = false := beq_eq_false_iff_ne.mpr h2
        simp only [List.find?, hb]
        exact ih

/-- C7: `updateSheet(id, newName)` on an existing sheet writes back the
file with exactly the first line replaced by the new name and every other
line unchanged, touches no other file in that step, and then reloads the
collection; across the whole operation (in the steady state where the
reserved file already holds the template) no other persisted sheet text
changes. -/
theorem updateSheet_rewrites_first_line (now sid newName : Str) (st : SheetStore)
    (s : Sheet) (old : Str)
    (hfind : st.sheets.find? (fun sh => sh.id == sid) = some s)
    (hread : readFile st.fs s.filePath = some old)
    (hnl : '\n' ∉ newName)
    (hts : readFile st.fs tipsFileName = some usefulTipsContent) :
    splitLines (joinLines (newName :: (splitLines old).drop 1))
        = newName :: (splitLines old).drop 1
    ∧ readFile (writeFile st.fs s.filePath
          (joinLines (newName :: (splitLines old).drop 1))) s.filePath
        = some (joinLines (newName :: (splitLines old).drop 1))
    ∧ (∀ p : Str, p ≠ s.filePath →
        readFile (writeFile st.fs s.filePath
          (joinLines (newName :: (splitLines old).drop 1))) p = readFile st.fs p)
    ∧ updateSheet now sid newName st
        = refreshStore now ⟨st.sheets, writeFile st.fs s.filePath
            (joinLines (newName :: (splitLines old).drop 1))⟩
    ∧ (∀ p : Str, p ≠ s.filePath →
        readFile (updateSheet now sid newName st).fs p = readFile st.fs p) := by
  have hsplit : splitLines (joinLines (newName :: (splitLines old).drop 1))
      = newName :: (splitLines old).drop 1 := by
    apply splitLines_joinLines _ (by simp)
    intro x hx
    rcases List.mem_cons.mp hx with h | h
    · exact h ▸ hnl
    · exact splitLines_no_nl old x (List.drop_subset 1 (splitLines old) h)
  have hupd : updateSheet now sid newName st
      = refreshStore now ⟨st.sheets, writeFile st.fs s.filePath
          (joinLines (newName :: (splitLines old).drop 1))⟩ := by
    simp only [updateSheet, hfind, hread]
  refine ⟨hsplit, readFile_writeFile_self _ _ _,
    fun p hp => readFile_writeFile_other _ _ _ _ hp, hupd, ?_⟩
  intro p hp
  rw [hupd]
  show readFile (writeFile (writeFile st.fs s.filePath
      (joinLines (newName :: (splitLines old).drop 1))) tipsFileName usefulTipsContent) p
    = readFile st.fs p
  by_cases hpt : p = tipsFileName
  · rw [hpt, readFile_writeFile_self, hts]
  · rw [readFile_writeFile_other _ _ _ _ hpt,
      readFile_writeFile_other _ _ _ _ hp]

/-- Witness for C7 at a concrete store: renaming sheet "a" to "B" writes
back "B\nbody" under "a.txt". -/
theorem updateSheet_rewrites_first_line_witness :
    readFile (writeFile [(tipsFileName, usefulTipsContent),
        ("a.txt".data, "A\nbody".data)] "a.txt".data
        (joinLines ("B".data :: (splitLines "A\nbody".data).drop 1))) "a.txt".data
      = some (joinLines ("B".data :: (splitLines "A\nbody".data).drop 1)) :=
  (updateSheet_rewrites_first_line [] "a".data "B".data
    ⟨[{ name := "A".data, id := "a".data, filePath := "a.txt".data,
        content := "A\nbody".data, headers := [] }],
      [(tipsFileName, usefulTipsContent), ("a.txt".data, "A\nbody".data)]⟩
    { name := "A".data, id := "a".data, filePath := "a.txt".data,
      content := "A\nbody".data, headers := [] }
    "A\nbody".data (by decide) rfl (by decide) rfl).2.1

/-- C9: `updateSheet` and `deleteSheet` with an id matching no sheet are
silent no-ops: the store (in-memory sheets and persisted files) is
returned unchanged. -/
theorem missing_id_update_delete_noop (now sid nm : Str) (st : SheetStore)
    (hfind : st.sheets.find? (fun sh => sh.id == sid) = none) :
    updateSheet now sid nm st = st ∧ deleteSheet now sid st = st := by
  constructor
  · simp only [updateSheet, hfind]
  · simp only [deleteSheet, hfind]

/-- Witness for C9 at a concrete store. -/
theorem missing_id_update_delete_noop_witness :
    updateSheet [] "x".data "y".data ⟨[], []⟩ = (⟨[], []⟩ : SheetStore)
    ∧ deleteSheet [] "x".data ⟨[], []⟩ = (⟨[], []⟩ : SheetStore) :=
  missing_id_update_delete_noop [] "x".data "y".data ⟨[], []⟩ rfl

/-! ## Claims on sheet names, parser totality, notes and indent levels -/

/-- C10 counterexample: a folder containing a file named exactly ".txt"
with a blank first line yields a loaded sheet whose name is the empty
string (the claim says the name of a loaded sheet is never empty). -/
theorem sheet_name_empty_counterexample :
    ([] : Str) ∈ ((loadSheets [] [(txtSuffix, "   \nbody".data)]).1.map Sheet.name) := by
  decide

/-- C10 (amended): the display name of a loaded non-reserved sheet is the
trimmed first line of its file, falling back to the base name of the file (its
id) when that line is blank; the name is non-empty whenever the base name
is non-empty (a file named exactly ".txt" has an empty base name and is
the only way to get an empty sheet name). -/
theorem sheet_name_fallback (now fname content : Str) (s : Sheet)
    (h : loadFile now (fname, content) = some s) :
    (trim ((splitLines content).headD []) ≠ [] →
        s.name = trim ((splitLines content).headD []))
    ∧ (trim ((splitLines content).headD []) = [] → s.name = fileId fname)
    ∧ (fileId fname ≠ [] → s.name ≠ []) := by
  simp only [loadFile] at h
  by_cases hc : txtSuffix.isSuffixOf fname = true ∧ fname ≠ tipsFileName
  case neg =>
    rw [if_neg hc] at h
    exact absurd h (by simp)
  case pos =>
    rw [if_pos hc] at h
    have hs : s = mkFileSheet now fname content := (Option.some.inj h).symm
    subst hs
    refine ⟨?_, ?_, ?_⟩
    · intro ht
      show (if trim ((splitLines content).headD []) = [] then fileId fname
            else trim ((splitLines content).headD [])) = _
      rw [if_neg ht]
    · intro ht
      show (if trim ((splitLines content).headD []) = [] then fileId fname
            else trim ((splitLines content).headD [])) = _
      rw [if_pos ht]
    · intro hid
      show (if trim ((splitLines content).headD []) = [] then fileId fname
            else trim ((splitLines content).headD [])) ≠ []
      by_cases ht : trim ((splitLines content).headD []) = []
      · rw [if_pos ht]; exact hid
      · rw [if_neg ht]; exact ht

/-- Witness for the amended C10: "a.txt" with a blank first line loads
with the non-empty name "a". -/
theorem sheet_name_fallback_witness :
    (mkFileSheet [] "a.txt".data "  \nbody".data).name ≠ [] :=
  (sheet_name_fallback [] "a.txt".data "  \nbody".data
    (mkFileSheet [] "a.txt".data "  \nbody".data) (by decide)).2.2 (by decide)

theorem parseGo_length_le (now : Str) : ∀ (ls : List Str) (acc : List Header) (ctr : Nat),
    (parseGo now ls acc ctr).length ≤ acc.length + ls.length := by
  intro ls
  induction ls with
  | nil => intro acc ctr; simp [parseGo]
  | cons l ls ih =>
    intro acc ctr
    by_cases hb : trim l = []
    · rw [parseGo_blank now ls acc ctr hb]
      have := ih acc ctr
      simp only [List.length_cons]
      omega
    · by_cases h1 : getIndentLevel l = 1
      · rw [parseGo_header now ls acc ctr hb h1]
        have := ih ({ name := trim l, id := ctr, notes := [] } :: acc) (ctr + 1)
        simp only [List.length_cons] at this ⊢
        omega
      · by_cases h2 : getIndentLevel l = 2
        · cases acc with
          | nil =>
            rw [parseGo_note_nil now ls ctr hb h1 h2]
            have := ih [] ctr
            simp only [List.length_cons, List.length_nil] at this ⊢
            omega
          | cons h hs =>
            rw [parseGo_note_cons now ls h hs ctr hb h1 h2]
            have := ih ({ h with notes := h.notes ++ [mkNote now ctr h.name (trim l)] } :: hs)
              (ctr + 1)
            simp only [List.length_cons] at this ⊢
            omega
        · rw [parseGo_other now ls acc ctr hb h1 h2]
          have := ih acc ctr
          simp only [List.length_cons]
          omega

/-- C8: the parser is total — for every input string it returns a
(possibly empty) list of headers, never more headers than input lines;
malformed indentation only means lines are ignored. -/
theorem parser_total_never_fails (now content : Str) :
    ∃ hs : List Header, parseSheetContent now content = hs
      ∧ hs.length ≤ (splitLines content).length := by
  refine ⟨_, rfl, ?_⟩
  rw [parseSheetContent, List.length_reverse]
  simpa using parseGo_length_le now (splitLines content) [] 0

theorem indexOfSub_eq_some (pat : Str) : ∀ (s : Str) (i : Nat),
    pat.isPrefixOf (s.drop i) = true →
    (∀ j, j < i → pat.isPrefixOf (s.drop j) = false) →
    indexOfSub pat s = some i := by
  intro s
  induction s with
  | nil =>
    intro i h1 h2
    rw [List.drop_nil] at h1
    cases pat with
    | nil =>
      cases i with
      | zero => simp [indexOfSub]
      | succ i' =>
        have := h2 0 (Nat.succ_pos i')
        rw [List.drop_nil] at this
        simp [List.isPrefixOf] at this
    | cons p ps => simp [List.isPrefixOf] at h1
  | cons c cs ih =>
    intro i h1 h2
    cases i with
    | zero =>
      rw [List.drop_zero] at h1
      rw [indexOfSub, if_pos h1]
    | succ i' =>
      have hp : pat.isPrefixOf (c :: cs) = false := by
        have := h2 0 (Nat.succ_pos i')
        rwa [List.drop_zero] at this
      rw [indexOfSub, if_neg (by simp [hp])]
      rw [List.drop_succ_cons] at h1
      rw [ih i' h1 (fun j hj => by
        have := h2 (j + 1) (Nat.succ_lt_succ hj)
        rwa [List.drop_succ_cons] at this)]
      rfl

theorem indexOfSub_some_match (pat : Str) : ∀ (s : Str) (i : Nat),
    indexOfSub pat s = some i → pat.isPrefixOf (s.drop i) = true := by
  intro s
  induction s with
  | nil =>
    intro i h
    rw [indexOfSub] at h
    by_cases hp : pat = ([] : Str)
    · rw [if_pos hp] at h
      have hi : i = 0 := by
        have := Option.some.inj h
        omega
      subst hi hp
      simp [List.isPrefixOf]
    · rw [if_neg hp] at h
      exact absurd h (by simp)
  | cons c cs ih =>
    intro i h
    rw [indexOfSub] at h
    by_cases hp : pat.isPrefixOf (c :: cs) = true
    · rw [if_pos hp] at h
      have hi : i = 0 := (Option.some.inj h).symm
      subst hi
      rwa [List.drop_zero]
    · rw [if_neg (by simp [hp])] at h
      obtain ⟨i', hi', hmap⟩ := Option.map_eq_some'.mp h
      subst hmap
      rw [List.drop_succ_cons]
      exact ih i' hi'

theorem indexOfSub_eq_none (pat : Str) (s : Str)
    (hall : ∀ j, pat.isPrefixOf (s.drop j) = false) : indexOfSub pat s = none := by
  cases h : indexOfSub pat s with
  | none => rfl
  | some i => exact absurd (indexOfSub_some_match pat s i h) (by simp [hall i])

/-- C5: a level-2 note is a Command iff the trimmed line starts with the
marker `>` (the marker and following whitespace stripped from content);
the first occurrence of the two-character sequence " #" in the remaining
content splits it into trimmed content and trimmed description, and
without such an occurrence the description is empty; the worked example
"        > git status # Check repo" parses to a Command with content
"git status", description "Check repo" and title "git status". -/
theorem note_command_marker_and_description (now hn t : Str) (ctr : Nat) :
    ((mkNote now ctr hn t).type = NoteType.command ↔ t.head? = some '>')
    ∧ (∀ i : Nat,
        (' ' :: ['#']).isPrefixOf ((noteContent0 t).drop i) = true →
        (∀ j, j < i → (' ' :: ['#']).isPrefixOf ((noteContent0 t).drop j) = false) →
        (mkNote now ctr hn t).content = trim ((noteContent0 t).take i)
          ∧ (mkNote now ctr hn t).description = some (trim ((noteContent0 t).drop (i + 2))))
    ∧ ((∀ j : Nat, (' ' :: ['#']).isPrefixOf ((noteContent0 t).drop j) = false) →
        (mkNote now ctr hn t).content = noteContent0 t
          ∧ (mkNote now ctr hn t).description = some [])
    ∧ parseSheetContent now ("    H\n        > git status # Check repo").data
        = [{ name := ['H'], id := 0, notes := [{
                          id := 1, title := "git status".data,
                          content := "git status".data, type := NoteType.command,
                          createdAt := now, tags := [], sheetName := [],
                          headerName := some ['H'],
                          description := some "Check repo".data }] }] := by
  refine ⟨?_, ?_, ?_, ?_⟩
  · by_cases h : t.head? = some '>' <;> simp [mkNote, h]
  · intro i h1 h2
    have heq : indexOfSub (' ' :: ['#']) (noteContent0 t) = some i :=
      indexOfSub_eq_some _ _ i h1 h2
    constructor <;> simp [mkNote, heq]
  · intro hall
    have heq : indexOfSub (' ' :: ['#']) (noteContent0 t) = none :=
      indexOfSub_eq_none _ _ hall
    constructor <;> simp [mkNote, heq]
  · rfl

/-- Witness for C5 at the worked example line. -/
theorem note_command_marker_and_description_witness :
    (mkNote [] 0 [] "> git status # Check repo".data).content = "git status".data
    ∧ (mkNote [] 0 [] "> git status # Check repo".data).description
        = some "Check repo".data := by
  have h := (note_command_marker_and_description [] [] "> git status # Check repo".data 0).2.1
    10 (by decide) (by decide)
  exact ⟨h.1.trans (by decide), h.2.trans (by decide)⟩

theorem indentWidth_replicate_space (n : Nat) (l : Str) :
    indentWidth (List.replicate n ' ' ++ l) = n + indentWidth l := by
  induction n with
  | zero => simp
  | succ n ih =>
    rw [List.replicate_succ, List.cons_append, indentWidth, if_pos rfl, ih]
    omega

theorem indentWidth_head_not_ws {c : Char} (rest : Str) (hc : isWs c = false) :
    indentWidth (c :: rest) = 0 := by
  have h1 : ¬ c = ' ' := by intro h; rw [h] at hc; simp [isWs] at hc
  have h2 : ¬ c = '\t' := by intro h; rw [h] at hc; simp [isWs] at hc
  rw [indentWidth, if_neg h1, if_neg h2]

theorem getIndentLevel_replicate {c : Char} (k : Nat) (rest : Str) (hc : isWs c = false) :
    getIndentLevel (List.replicate k ' ' ++ c :: rest) = k / 4 := by
  rw [getIndentLevel, indentWidth_replicate_space, indentWidth_head_not_ws rest hc]
  omega

theorem dropWhile_isWs_replicate (n : Nat) (l : Str) :
    (List.replicate n ' ' ++ l).dropWhile isWs = l.dropWhile isWs := by
  induction n with
  | zero => simp
  | succ n ih =>
    rw [List.replicate_succ, List.cons_append, List.dropWhile_cons,
      if_pos (show isWs ' ' = true by decide)]
    exact ih

theorem dropWhile_isWs_snoc {c : Char} (hc : isWs c = false) : ∀ (l : Str),
    (l ++ [c]).dropWhile isWs ≠ [] := by
  intro l
  induction l with
  | nil => simp [List.dropWhile_cons, hc]
  | cons a l ih =>
    rw [List.cons_append, List.dropWhile_cons]
    by_cases h : isWs a = true
    · rw [if_pos h]; exact ih
    · rw [if_neg h]; simp

theorem trim_replicate_ne_nil {c : Char} (k : Nat) (rest : Str) (hc : isWs c = false) :
    trim (List.replicate k ' ' ++ c :: rest) ≠ [] := by
  rw [trim, dropWhile_isWs_replicate, List.dropWhile_cons, if_neg (by simp [hc])]
  rw [List.reverse_cons]
  intro h
  exact dropWhile_isWs_snoc hc rest.reverse (List.reverse_eq_nil_iff.mp h)

theorem no_nl_replicate_append {c : Char} {rest : Str} (k : Nat)
    (hnl : '\n' ∉ (c :: rest)) : '\n' ∉ (List.replicate k ' ' ++ c :: rest) := by
  intro hm
  rcases List.mem_append.mp hm with h | h
  · exact absurd (List.eq_of_mem_replicate h) (by decide)
  · exact hnl h

/-- C6 counterexample: the claim says a line with 9 or more leading
spaces (allegedly level ≥ 3) produces no structural element, but 9
leading spaces give level ⌊9/4⌋ = 2, so such a line creates a Note under
the current header. -/
theorem nine_spaces_note_counterexample :
    (parseSheetContent [] ("    H\n         x").data).map
        (fun h => (h.name, h.notes.map (fun n => n.content)))
      = [(['H'], [['x']])] := by decide

/-- C6 (amended): a line with exactly 4 leading spaces produces a Header;
a line with exactly 8 leading spaces produces a Note under the most
recent Header; a line with 3 leading spaces or with 12 or more leading
spaces (level 0 or ≥ 3) produces no new structural element and does not
alter the parser state. -/
theorem indent_levels_amended (now : Str) :
    (∀ (c : Char) (rest : Str), isWs c = false → '\n' ∉ (c :: rest) →
        parseSheetContent now (List.replicate 4 ' ' ++ c :: rest)
          = [{ name := trim (List.replicate 4 ' ' ++ c :: rest), id := 0, notes := [] }])
    ∧ (∀ (c : Char) (rest : Str), isWs c = false → '\n' ∉ (c :: rest) →
        parseSheetContent now (joinLines ["    A".data, "    B".data,
            List.replicate 8 ' ' ++ c :: rest])
          = [{ name := "A".data, id := 0, notes := [] },
             { name := "B".data, id := 1,
               notes := [mkNote now 2 "B".data
                 (trim (List.replicate 8 ' ' ++ c :: rest))] }])
    ∧ (∀ (k : Nat) (c : Char) (rest : Str) (ls : List Str) (acc : List Header) (ctr : Nat),
        isWs c = false → k = 3 ∨ 12 ≤ k →
        parseGo now ((List.replicate k ' ' ++ c :: rest) :: ls) acc ctr
          = parseGo now ls acc ctr) := by
  refine ⟨?_, ?_, ?_⟩
  · intro c rest hc hnl
    rw [parseSheetContent, splitLines_of_no_nl _ (no_nl_replicate_append 4 hnl),
      parseGo_header now [] [] 0 (trim_replicate_ne_nil 4 rest hc)
        (by rw [getIndentLevel_replicate 4 rest hc]),
      parseGo]
    simp
  · intro c rest hc hnl
    have hnlc : ∀ x ∈ ["    A".data, "    B".data,
        List.replicate 8 ' ' ++ c :: rest], '\n' ∉ x := by
      intro x hx
      rcases List.mem_cons.mp hx with h | hx
      · subst h; decide
      rcases List.mem_cons.mp hx with h | hx
      · subst h; decide
      rcases List.mem_cons.mp hx with h | hx
      · subst h; exact no_nl_replicate_append 8 hnl
      · exact absurd hx (List.not_mem_nil x)
    rw [parseSheetContent, splitLines_joinLines _ (by simp) hnlc,
      parseGo_header now _ [] 0 (by decide) (by decide),
      parseGo_header now _ _ 1 (by decide) (by decide),
      parseGo_note_cons now [] _ _ 2 (trim_replicate_ne_nil 8 rest hc)
        (by rw [getIndentLevel_replicate 8 rest hc]; decide)
        (by rw [getIndentLevel_replicate 8 rest hc]),
      parseGo]
    have hA : trim "    A".data = "A".data := by decide
    have hB : trim "    B".data = "B".data := by decide
    rw [hA, hB]
    simp
  · intro k c rest ls acc ctr hc hk
    have hlvl := getIndentLevel_replicate (c := c) k rest hc
    rcases hk with hk | hk
    · subst hk
      exact parseGo_other now ls acc ctr (trim_replicate_ne_nil 3 rest hc)
        (by rw [hlvl]; decide) (by rw [hlvl]; decide)
    · exact parseGo_other now ls acc ctr (trim_replicate_ne_nil k rest hc)
        (by rw [hlvl]; omega) (by rw [hlvl]; omega)

/-- Witness for the amended C6: a line of 4 spaces then "H" parses to a
single header named "H", and a 12-space line is ignored. -/
theorem indent_levels_amended_witness :
    parseSheetContent [] (List.replicate 4 ' ' ++ ['H'])
      = [{ name := trim (List.replicate 4 ' ' ++ ['H']), id := 0, notes := [] }]
    ∧ parseGo [] ((List.replicate 12 ' ' ++ ['x']) :: []) [] 0 = parseGo [] [] [] 0 :=
  ⟨(indent_levels_amended []).1 'H' [] (by decide) (by decide),
   (indent_levels_amended []).2.2 12 'x' [] [] [] 0 (by decide) (Or.inr (by decide))⟩

/-! ## Project provider (src/src/ProjectProvider.ts) -/

/-- Structure `ProjectEntry` from the source (`category` and `favorite` are
optional fields in the persisted JSON). -/
structure ProjectEntry where
  label : Str
  path : Str
  active : Bool
  category : Option Str
  favorite : Option Bool
deriving DecidableEq, Repr

/-- A path separator for `label.split(/[\\/]/)`. -/
def isSep (c : Char) : Bool := c = '/' || c = '\\'

/-- Model of `label.split(/[\\/]/)`: split at every separator character. -/
def splitSeps : Str → List Str
  | [] => [[]]
  | c :: rest =>
    if isSep c then [] :: splitSeps rest
    else
      match splitSeps rest with
      | [] => [[c]]
      | l :: ls => (c :: l) :: ls

/-- A node of the tree object built by `buildProjectTree` (`__fullPath`,
`__active`, `__category`, `__favorite`, `__children`; children keyed by
segment name in first-insertion order). -/
inductive PNode where
  | mk (fullPath : Option Str) (active : Bool) (category : Option Str)
      (favorite : Bool) (children : List (Str × PNode))

def PNode.fullPath : PNode → Option Str
  | .mk f _ _ _ _ => f

def PNode.active : PNode → Bool
  | .mk _ a _ _ _ => a

def PNode.category : PNode → Option Str
  | .mk _ _ c _ _ => c

def PNode.favorite : PNode → Bool
  | .mk _ _ _ f _ => f

def PNode.children : PNode → List (Str × PNode)
  | .mk _ _ _ _ ch => ch

/-- Property lookup on a children object. -/
def lookupChild (ch : List (Str × PNode)) (k : Str) : Option PNode :=
  (ch.find? (fun e => e.1 == k)).map (·.2)

/-- Property assignment on a children object: overwrite in place, or
append the new key (JS object insertion order). -/
def setChild : List (Str × PNode) → Str → PNode → List (Str × PNode)
  | [], k, v => [(k, v)]
  | e :: es, k, v => if e.1 = k then (k, v) :: es else e :: setChild es k v

/-- The per-segment create/overwrite step of `buildProjectTree`: a fresh
node gets the metadata of the record (and `fullPath` when at the last
segment); an existing node has its metadata overwritten and gains
`fullPath` at the last segment, keeping its children. -/
def stepNode (r : ProjectEntry) (isLast : Bool) : Option PNode → PNode
  | none => .mk (if isLast then some r.path else none) r.active r.category
      (r.favorite.getD false) []
  | some n => .mk (if isLast then some r.path else n.fullPath) r.active r.category
      (r.favorite.getD false) n.children

/-- Walk the label segments of one record down the tree. -/
def insertParts (r : ProjectEntry) : List Str → List (Str × PNode) → List (Str × PNode)
  | [], ch => ch
  | [p], ch => setChild ch p (stepNode r true (lookupChild ch p))
  | p :: ps :: pss, ch =>
    let n := stepNode r false (lookupChild ch p)
    setChild ch p (.mk n.fullPath n.active n.category n.favorite
      (insertParts r (ps :: pss) n.children))

/-- `buildProjectTree` from the source (the `root` object; conversion to
display items is presentation). -/
def buildProjectTree (projects : List ProjectEntry) : List (Str × PNode) :=
  projects.foldl (fun root r => insertParts r (splitSeps r.label) root) []

/-- Look a node up by its segment path. -/
def nodeAt (ch : List (Str × PNode)) : List Str → Option PNode
  | [] => none
  | p :: ps =>
    match lookupChild ch p with
    | none => none
    | some n =>
      match ps with
      | [] => some n
      | q :: qs => nodeAt n.children (q :: qs)

/-- The metadata fields overwritten at every visited segment. -/
def nodeMeta (n : PNode) : Bool × Option Str × Bool :=
  (n.active, n.category, n.favorite)

/-- The most recent record whose label splits with `σ` as a prefix. -/
def lastWithPre (rs : List ProjectEntry) (σ : List Str) : Option ProjectEntry :=
  rs.reverse.find? (fun r => σ.isPrefixOf (splitSeps r.label))

/-- The most recent record whose label splits exactly to `σ`. -/
def lastWithExact (rs : List ProjectEntry) (σ : List Str) : Option ProjectEntry :=
  rs.reverse.find? (fun r => splitSeps r.label == σ)

/-! ## Category/favorite grouping (`buildTree` with categories shown) -/

/-- The three accumulators of the partition loop in `buildTree`. -/
structure GroupAcc where
  favorites : List ProjectEntry
  categoryGroups : List (Str × List ProjectEntry)
  uncategorized : List ProjectEntry
deriving DecidableEq, Repr

/-- JS truthiness of `project.category` (undefined and "" are falsy). -/
def categoryTruthy : Option Str → Bool
  | none => false
  | some s => !s.isEmpty

/-- `categoryGroups[k].push(r)`, creating the bucket if missing. -/
def addToGroup : List (Str × List ProjectEntry) → Str → ProjectEntry →
    List (Str × List ProjectEntry)
  | [], k, r => [(k, [r])]
  | e :: es, k, r => if e.1 = k then (k, e.2 ++ [r]) :: es else e :: addToGroup es k r

/-- One iteration of the partition loop of `buildTree`. -/
def groupStep (acc : GroupAcc) (r : ProjectEntry) : GroupAcc :=
  let acc1 := if r.favorite.getD false then
      { acc with favorites := acc.favorites ++ [r] }
    else acc
  if categoryTruthy r.category then
    { acc1 with categoryGroups := addToGroup acc1.categoryGroups (r.category.getD []) r }
  else
    { acc1 with uncategorized := acc1.uncategorized ++ [r] }

/-- The partition step of `buildTree` when categories are shown. -/
def groupProjects (projects : List ProjectEntry) : GroupAcc :=
  projects.foldl groupStep ⟨[], [], []⟩

theorem groupProjects_favorites_aux : ∀ (ps : List ProjectEntry) (acc : GroupAcc),
    (ps.foldl groupStep acc).favorites
      = acc.favorites ++ ps.filter (fun r => r.favorite.getD false) := by
  intro ps
  induction ps with
  | nil => intro acc; simp
  | cons r ps ih =>
    intro acc
    rw [List.foldl_cons, ih]
    by_cases hf : r.favorite.getD false = true
    · by_cases hc : categoryTruthy r.category = true
      · simp [groupStep, hf, hc, List.filter_cons]
      · simp [groupStep, hf, hc, List.filter_cons]
    · by_cases hc : categoryTruthy r.category = true
      · simp [groupStep, hf, hc, List.filter_cons]
      · simp [groupStep, hf, hc, List.filter_cons]

theorem groupProjects_uncategorized_aux : ∀ (ps : List ProjectEntry) (acc : GroupAcc),
    (ps.foldl groupStep acc).uncategorized
      = acc.uncategorized ++ ps.filter (fun r => !(categoryTruthy r.category)) := by
  intro ps
  induction ps with
  | nil => intro acc; simp
  | cons r ps ih =>
    intro acc
    rw [List.foldl_cons, ih]
    by_cases hf : r.favorite.getD false = true
    · by_cases hc : categoryTruthy r.category = true
      · simp [groupStep, hf, hc, List.filter_cons]
      · simp [groupStep, hf, hc, List.filter_cons]
    · by_cases hc : categoryTruthy r.category = true
      · simp [groupStep, hf, hc, List.filter_cons]
      · simp [groupStep, hf, hc, List.filter_cons]

/-- C3: in the grouping step of `buildTree` (categories shown), the
favorites bucket is exactly the records with a true favorite flag (in
order, regardless of category) and the uncategorized bucket is exactly
the records whose category is unset (even favorites); hence a favorite
record without a category appears in both buckets of the same build. -/
theorem grouping_favorites_and_uncategorized (projects : List ProjectEntry) :
    (groupProjects projects).favorites
        = projects.filter (fun r => r.favorite.getD false)
    ∧ (groupProjects projects).uncategorized
        = projects.filter (fun r => !(categoryTruthy r.category))
    ∧ (∀ r ∈ projects, r.favorite.getD false = true → categoryTruthy r.category = false →
        r ∈ (groupProjects projects).favorites
          ∧ r ∈ (groupProjects projects).uncategorized) := by
  have h1 := groupProjects_favorites_aux projects ⟨[], [], []⟩
  have h2 := groupProjects_uncategorized_aux projects ⟨[], [], []⟩
  rw [List.nil_append] at h1 h2
  refine ⟨h1, h2, ?_⟩
  intro r hr hf hc
  constructor
  · rw [show (groupProjects projects).favorites
        = projects.filter (fun r => r.favorite.getD false) from h1]
    exact List.mem_filter.mpr ⟨hr, by simp [hf]⟩
  · rw [show (groupProjects projects).uncategorized
        = projects.filter (fun r => !(categoryTruthy r.category)) from h2]
    exact List.mem_filter.mpr ⟨hr, by simp [hc]⟩

/-- Witness for C3: a favorite record without category lands in both the
favorites and the uncategorized buckets. -/
theorem grouping_favorites_and_uncategorized_witness :
    (⟨"X".data, "/p".data, true, none, some true⟩ : ProjectEntry)
        ∈ (groupProjects [⟨"X".data, "/p".data, true, none, some true⟩]).favorites
    ∧ (⟨"X".data, "/p".data, true, none, some true⟩ : ProjectEntry)
        ∈ (groupProjects [⟨"X".data, "/p".data, true, none, some true⟩]).uncategorized :=
  (grouping_favorites_and_uncategorized
      [⟨"X".data, "/p".data, true, none, some true⟩]).2.2
    ⟨"X".data, "/p".data, true, none, some true⟩
    (List.mem_cons_self _ _) (by decide) (by decide)

theorem lookupChild_setChild : ∀ (ch : List (Str × PNode)) (k : Str) (v : PNode) (q : Str),
    lookupChild (setChild ch k v) q = if q = k then some v else lookupChild ch q := by
  intro ch k v q
  induction ch with
  | nil =>
    rw [setChild]
    by_cases h : q = k
    · subst h
      simp [lookupChild, List.find?]
    · have hb : (k == q) = false := beq_eq_false_iff_ne.mpr (fun hh => h hh.symm)
      simp [lookupChild, List.find?, hb, h]
  | cons e es ih =>
    rw [setChild]
    by_cases he : e.1 = k
    · rw [if_pos he]
      by_cases h : q = k
      · subst h
        simp [lookupChild, List.find?]
      · have hb : (k == q) = false := beq_eq_false_iff_ne.mpr (fun hh => h hh.symm)
        have hb2 : (e.1 == q) = false := by rw [he]; exact hb
        simp [lookupChild, List.find?, hb, hb2, h]
    · rw [if_neg he]
      by_cases h : q = e.1
      · have hq : q ≠ k := fun hh => he (h ▸ hh)
        have hb : (e.1 == q) = true := beq_iff_eq.mpr h.symm
        simp [lookupChild, List.find?, hb, hq]
      · have hb : (e.1 == q) = false := beq_eq_false_iff_ne.mpr (fun hh => h hh.symm)
        simp only [lookupChild, List.find?, hb] at ih ⊢
        exact ih

theorem nodeAt_nil_children : ∀ (σ : List Str), nodeAt [] σ = none := by
  intro σ
  cases σ with
  | nil => rfl
  | cons p ps => simp [nodeAt, lookupChild, List.find?]

theorem nodeMeta_stepNode (r : ProjectEntry) (b : Bool) (x : Option PNode) :
    nodeMeta (stepNode r b x) = (r.active, r.category, r.favorite.getD false) := by
  cases x <;> rfl

theorem splitSeps_ne_nil (l : Str) : splitSeps l ≠ [] := by
  cases l with
  | nil => simp [splitSeps]
  | cons c rest =>
    rw [splitSeps]
    by_cases h : isSep c = true
    · simp [h]
    · rw [if_neg (by simp [h])]
      cases splitSeps rest <;> simp

theorem nodeAt_setChild_single (ch : List (Str × PNode)) (k : Str) (v : PNode) (q : Str) :
    nodeAt (setChild ch k v) [q] = if q = k then some v else nodeAt ch [q] := by
  rw [nodeAt, lookupChild_setChild]
  by_cases h : q = k
  · rw [if_pos h, if_pos h]
  · rw [if_neg h, if_neg h]
    conv_rhs => rw [nodeAt]

theorem nodeAt_setChild_deep (ch : List (Str × PNode)) (k : Str) (v : PNode)
    (q q2 : Str) (σ3 : List Str) :
    nodeAt (setChild ch k v) (q :: q2 :: σ3)
      = if q = k then nodeAt v.children (q2 :: σ3) else nodeAt ch (q :: q2 :: σ3) := by
  rw [nodeAt, lookupChild_setChild]
  by_cases h : q = k
  · rw [if_pos h, if_pos h]
  · rw [if_neg h, if_neg h]
    conv_rhs => rw [nodeAt]

theorem nodeAt_children_stepNode (r : ProjectEntry) (b : Bool)
    (ch : List (Str × PNode)) (q q2 : Str) (σ3 : List Str) :
    nodeAt (stepNode r b (lookupChild ch q)).children (q2 :: σ3)
      = nodeAt ch (q :: q2 :: σ3) := by
  conv_rhs => rw [nodeAt]
  cases hl : lookupChild ch q with
  | none =>
    rw [show (stepNode r b none).children = [] from rfl, nodeAt_nil_children]
  | some n =>
    rw [show (stepNode r b (some n)).children = n.children from rfl]

theorem nodeAt_insertParts_meta (r : ProjectEntry) :
    ∀ (ps σ : List Str) (ch : List (Str × PNode)), ps ≠ [] → σ ≠ [] →
    (nodeAt (insertParts r ps ch) σ).map nodeMeta
      = if σ.isPrefixOf ps = true then some (r.active, r.category, r.favorite.getD false)
        else (nodeAt ch σ).map nodeMeta := by
  intro ps
  induction ps with
  | nil => intro σ ch hps _; exact absurd rfl hps
  | cons p ps ih =>
    intro σ ch _ hσ
    cases σ with
    | nil => exact absurd rfl hσ
    | cons q σ2 =>
      cases ps with
      | nil =>
        rw [insertParts]
        cases σ2 with
        | nil =>
          rw [nodeAt_setChild_single]
          by_cases hqp : q = p
          · subst hqp
            rw [if_pos rfl, if_pos (by simp [List.isPrefixOf])]
            simp [nodeMeta_stepNode]
          · rw [if_neg hqp, if_neg (by simp [List.isPrefixOf, hqp])]
        | cons q2 σ3 =>
          rw [nodeAt_setChild_deep]
          by_cases hqp : q = p
          · subst hqp
            rw [if_pos rfl, if_neg (by simp [List.isPrefixOf]),
              nodeAt_children_stepNode]
          · rw [if_neg hqp, if_neg (by simp [List.isPrefixOf, hqp])]
      | cons p2 ps2 =>
        simp only [insertParts]
        cases σ2 with
        | nil =>
          rw [nodeAt_setChild_single]
          by_cases hqp : q = p
          · subst hqp
            rw [if_pos rfl, if_pos (by simp [List.isPrefixOf])]
            cases hl : lookupChild ch q with
            | none =>
              simp [hl, stepNode, nodeMeta, PNode.active, PNode.category, PNode.favorite]
            | some n =>
              simp [hl, stepNode, nodeMeta, PNode.active, PNode.category, PNode.favorite]
          · rw [if_neg hqp, if_neg (by simp [List.isPrefixOf, hqp])]
        | cons q2 σ3 =>
          rw [nodeAt_setChild_deep]
          by_cases hqp : q = p
          · subst hqp
            rw [if_pos rfl,
              show (PNode.mk (stepNode r false (lookupChild ch q)).fullPath
                  (stepNode r false (lookupChild ch q)).active
                  (stepNode r false (lookupChild ch q)).category
                  (stepNode r false (lookupChild ch q)).favorite
                  (insertParts r (p2 :: ps2)
                    (stepNode r false (lookupChild ch q)).children)).children
                = insertParts r (p2 :: ps2) (stepNode r false (lookupChild ch q)).children
                from rfl]
            rw [ih (q2 :: σ3) _ (List.cons_ne_nil p2 ps2) (List.cons_ne_nil q2 σ3)]
            have hpre : ((q :: q2 :: σ3).isPrefixOf (q :: p2 :: ps2))
                = ((q2 :: σ3).isPrefixOf (p2 :: ps2)) := by
              simp [List.isPrefixOf]
            rw [hpre]
            by_cases hpp : (q2 :: σ3).isPrefixOf (p2 :: ps2) = true
            · rw [if_pos hpp, if_pos hpp]
            · rw [if_neg hpp, if_neg hpp, nodeAt_children_stepNode]
          · rw [if_neg hqp, if_neg (by simp [List.isPrefixOf, hqp])]

theorem nodeAt_insertParts_fullPath (r : ProjectEntry) :
    ∀ (ps σ : List Str) (ch : List (Str × PNode)), ps ≠ [] → σ ≠ [] →
    (nodeAt (insertParts r ps ch) σ).map PNode.fullPath
      = if (σ == ps) = true then some (some r.path)
        else if σ.isPrefixOf ps = true then
          some ((nodeAt ch σ).elim none PNode.fullPath)
        else (nodeAt ch σ).map PNode.fullPath := by
  intro ps
  induction ps with
  | nil => intro σ ch hps _; exact absurd rfl hps
  | cons p ps ih =>
    intro σ ch _ hσ
    cases σ with
    | nil => exact absurd rfl hσ
    | cons q σ2 =>
      cases ps with
      | nil =>
        rw [insertParts]
        cases σ2 with
        | nil =>
          rw [nodeAt_setChild_single]
          by_cases hqp : q = p
          · subst hqp
            rw [if_pos rfl, if_pos (by simp)]
            cases hl : lookupChild ch q with
            | none => simp [stepNode, PNode.fullPath]
            | some n => simp [stepNode, PNode.fullPath]
          · rw [if_neg hqp, if_neg (by simp [hqp]),
              if_neg (by simp [List.isPrefixOf, hqp])]
        | cons q2 σ3 =>
          rw [nodeAt_setChild_deep]
          by_cases hqp : q = p
          · subst hqp
            rw [if_pos rfl, nodeAt_children_stepNode,
              if_neg (by simp), if_neg (by simp [List.isPrefixOf])]
          · rw [if_neg hqp, if_neg (by simp [hqp]),
              if_neg (by simp [List.isPrefixOf, hqp])]
      | cons p2 ps2 =>
        simp only [insertParts]
        cases σ2 with
        | nil =>
          rw [nodeAt_setChild_single]
          by_cases hqp : q = p
          · subst hqp
            rw [if_pos rfl, if_neg (by simp), if_pos (by simp [List.isPrefixOf])]
            conv_rhs => rw [nodeAt]
            cases hl : lookupChild ch q with
            | none => simp [stepNode, PNode.fullPath]
            | some n => simp [stepNode, PNode.fullPath]
          · rw [if_neg hqp, if_neg (by simp [hqp]),
              if_neg (by simp [List.isPrefixOf, hqp])]
        | cons q2 σ3 =>
          rw [nodeAt_setChild_deep]
          by_cases hqp : q = p
          · subst hqp
            rw [if_pos rfl,
              show (PNode.mk (stepNode r false (lookupChild ch q)).fullPath
                  (stepNode r false (lookupChild ch q)).active
                  (stepNode r false (lookupChild ch q)).category
                  (stepNode r false (lookupChild ch q)).favorite
                  (insertParts r (p2 :: ps2)
                    (stepNode r false (lookupChild ch q)).children)).children
                = insertParts r (p2 :: ps2) (stepNode r false (lookupChild ch q)).children
                from rfl]
            rw [ih (q2 :: σ3) _ (List.cons_ne_nil p2 ps2) (List.cons_ne_nil q2 σ3)]
            have hbeq : ((q :: q2 :: σ3) == (q :: p2 :: ps2))
                = ((q2 :: σ3) == (p2 :: ps2)) := by
              show (q == q && ((q2 :: σ3) == (p2 :: ps2))) = ((q2 :: σ3) == (p2 :: ps2))
              rw [beq_self_eq_true]
              exact Bool.true_and _
            have hpre : ((q :: q2 :: σ3).isPrefixOf (q :: p2 :: ps2))
                = ((q2 :: σ3).isPrefixOf (p2 :: ps2)) := by
              simp [List.isPrefixOf]
            rw [hbeq, hpre]
            by_cases hb : ((q2 :: σ3) == (p2 :: ps2)) = true
            · rw [if_pos hb, if_pos hb]
            · rw [if_neg hb, if_neg hb]
              by_cases hpp : (q2 :: σ3).isPrefixOf (p2 :: ps2) = true
              · rw [if_pos hpp, if_pos hpp, nodeAt_children_stepNode]
              · rw [if_neg hpp, if_neg hpp, nodeAt_children_stepNode]
          · rw [if_neg hqp, if_neg (by simp [hqp]),
              if_neg (by simp [List.isPrefixOf, hqp])]

theorem lastWithPre_append (rs : List ProjectEntry) (r : ProjectEntry) (σ : List Str) :
    lastWithPre (rs ++ [r]) σ
      = if σ.isPrefixOf (splitSeps r.label) = true then some r else lastWithPre rs σ := by
  rw [lastWithPre, List.reverse_append]
  simp only [List.reverse_cons, List.reverse_nil, List.nil_append, List.singleton_append]
  by_cases h : σ.isPrefixOf (splitSeps r.label) = true
  · rw [@List.find?_cons_of_pos _ (fun x : ProjectEntry => σ.isPrefixOf (splitSeps x.label))
      r rs.reverse h, if_pos h]
  · rw [@List.find?_cons_of_neg _ (fun x : ProjectEntry => σ.isPrefixOf (splitSeps x.label))
      r rs.reverse h, if_neg h]
    rfl

theorem lastWithExact_append (rs : List ProjectEntry) (r : ProjectEntry) (σ : List Str) :
    lastWithExact (rs ++ [r]) σ
      = if (splitSeps r.label == σ) = true then some r else lastWithExact rs σ := by
  rw [lastWithExact, List.reverse_append]
  simp only [List.reverse_cons, List.reverse_nil, List.nil_append, List.singleton_append]
  by_cases h : (splitSeps r.label == σ) = true
  · rw [@List.find?_cons_of_pos _ (fun x : ProjectEntry => splitSeps x.label == σ)
      r rs.reverse h, if_pos h]
  · rw [@List.find?_cons_of_neg _ (fun x : ProjectEntry => splitSeps x.label == σ)
      r rs.reverse h, if_neg h]
    rfl

theorem lastWithExact_none_of_pre_none {rs : List ProjectEntry} {σ : List Str}
    (h : lastWithPre rs σ = none) : lastWithExact rs σ = none := by
  rw [lastWithPre, List.find?_eq_none] at h
  rw [lastWithExact, List.find?_eq_none]
  intro x hx hbeq
  apply h x hx
  have heq : splitSeps x.label = σ := by
    have := hbeq
    exact beq_iff_eq.mp this
  rw [heq] at hbeq ⊢
  exact List.isPrefixOf_iff_prefix.mpr List.prefix_rfl

/-- The two records of the worked example. -/
def exampleRecords : List ProjectEntry :=
  [⟨"A/B".data, "/p1".data, true, none, none⟩,
   ⟨"A/C".data, "/p2".data, false, none, none⟩]

/-- The tree the example folds to: one root "A" without fullPath, whose
metadata comes from the later record, with children "B" then "C". -/
def exampleTree : List (Str × PNode) :=
  [(['A'], .mk none false none false
      [(['B'], .mk (some "/p1".data) true none false []),
       (['C'], .mk (some "/p2".data) false none false [])])]

theorem buildProjectTree_append (rs : List ProjectEntry) (r : ProjectEntry) :
    buildProjectTree (rs ++ [r])
      = insertParts r (splitSeps r.label) (buildProjectTree rs) := by
  rw [buildProjectTree, buildProjectTree, List.foldl_append]
  rfl

/-- C2: `buildProjectTree` folds records in list order: a node exists at
a (non-empty) segment path iff the label split of some record extends it; its
`active`/`category`/`favorite` are those of the last record whose split
passes through the path (overwritten at every visited segment); its
`fullPath` is the path of the last record whose split is exactly the
path of the node, if any; and the worked example `[A/B ↦ /p1, A/C ↦ /p2]`
yields one root "A" without fullPath and children "B" (/p1), "C" (/p2)
in first-insertion order. -/
theorem buildProjectTree_folds_labels (rs : List ProjectEntry) (σ : List Str)
    (hσ : σ ≠ []) :
    ((nodeAt (buildProjectTree rs) σ).map nodeMeta
        = (lastWithPre rs σ).map (fun r => (r.active, r.category, r.favorite.getD false)))
    ∧ ((nodeAt (buildProjectTree rs) σ).map PNode.fullPath
        = (lastWithPre rs σ).map (fun _ => (lastWithExact rs σ).map ProjectEntry.path))
    ∧ buildProjectTree exampleRecords = exampleTree := by
  have main : ∀ rs : List ProjectEntry,
      ((nodeAt (buildProjectTree rs) σ).map nodeMeta
        = (lastWithPre rs σ).map (fun r => (r.active, r.category, r.favorite.getD false)))
      ∧ ((nodeAt (buildProjectTree rs) σ).map PNode.fullPath
        = (lastWithPre rs σ).map (fun _ => (lastWithExact rs σ).map ProjectEntry.path)) := by
    intro rs
    induction rs using List.reverseRecOn with
    | nil =>
      constructor <;>
        simp [buildProjectTree, nodeAt_nil_children, lastWithPre, List.find?]
    | append_singleton rs r ih =>
      constructor
      · rw [buildProjectTree_append,
          nodeAt_insertParts_meta r (splitSeps r.label) σ _ (splitSeps_ne_nil r.label) hσ,
          lastWithPre_append]
        by_cases h : σ.isPrefixOf (splitSeps r.label) = true
        · rw [if_pos h, if_pos h]
          rfl
        · rw [if_neg h, if_neg h]
          exact ih.1
      · rw [buildProjectTree_append,
          nodeAt_insertParts_fullPath r (splitSeps r.label) σ _ (splitSeps_ne_nil r.label) hσ,
          lastWithPre_append, lastWithExact_append]
        by_cases heq : σ = splitSeps r.label
        · have h1 : (σ == splitSeps r.label) = true := beq_iff_eq.mpr heq
          have h2 : (if (splitSeps r.label == σ) = true then some r
              else lastWithExact rs σ) = some r := if_pos (beq_iff_eq.mpr heq.symm)
          have h3 : σ.isPrefixOf (splitSeps r.label) = true :=
            heq ▸ List.isPrefixOf_iff_prefix.mpr List.prefix_rfl
          rw [if_pos h1, h2, if_pos h3]
          rfl
        · have hb1 : ¬((σ == splitSeps r.label) = true) :=
            fun hh => heq (beq_iff_eq.mp hh)
          have hb2 : (if (splitSeps r.label == σ) = true then some r
              else lastWithExact rs σ) = lastWithExact rs σ :=
            if_neg (fun hh => heq (beq_iff_eq.mp hh).symm)
          rw [if_neg hb1, hb2]
          by_cases hp : σ.isPrefixOf (splitSeps r.label) = true
          · rw [if_pos hp, if_pos hp]
            cases hn : nodeAt (buildProjectTree rs) σ with
            | none =>
              have h2 := ih.2
              rw [hn] at h2
              have hnone : lastWithPre rs σ = none := by
                cases hl : lastWithPre rs σ with
                | none => rfl
                | some x => rw [hl] at h2; exact absurd h2 (by simp)
              rw [lastWithExact_none_of_pre_none hnone]
              simp
            | some n =>
              have h2 := ih.2
              rw [hn] at h2
              cases hl : lastWithPre rs σ with
              | none => rw [hl] at h2; exact absurd h2 (by simp)
              | some x =>
                rw [hl] at h2
                simp only [Option.map_some'] at h2 ⊢
                simp only [Option.elim]
                exact congrArg some (Option.some.inj h2)
          · rw [if_neg hp, if_neg hp]
            exact ih.2
  exact ⟨(main rs).1, (main rs).2, rfl⟩

/-- Witness for C2 at the worked example and path ["A"]. -/
theorem buildProjectTree_folds_labels_witness :
    (nodeAt (buildProjectTree exampleRecords) [['A']]).map nodeMeta
      = (lastWithPre exampleRecords [['A']]).map
          (fun r => (r.active, r.category, r.favorite.getD false)) :=
  (buildProjectTree_folds_labels exampleRecords [['A']] (by decide)).1

end Mess
